import Mathlib

/-!
Verification of the opencode-rules plugin core.

The development shallowly embeds the runtime decision subsystem of the
plugin: the matching engine and rule formatter of `src/utils.ts`
(`promptMatchesKeywords`, `parseRuleMetadata`, `fileMatchesGlobs`,
`readAndFormatRules`) and the per-session context tracker of the plugin
module (`upsertSessionState`, `normalizeContextPath`,
`sanitizePathForContext`, the `messages.transform` and
`session.compacting` hooks).

Strings are modelled as `List Char` (`Str`).  External collaborators that
can fail — the file system (`readFileSync`) and the third-party
`minimatch` pattern matcher — are modelled as `Except Unit`-valued
functions supplied as parameters; JavaScript exceptions are `Except.error`
values that propagate exactly where the source lets them propagate and
are caught exactly where the source catches them.
-/

namespace OpencodeRules

/-- Strings modelled as explicit character lists. -/
abbrev Str := List Char

/-- JavaScript `\s` / `String.prototype.trim` whitespace, restricted to the
character repertoire appearing in rule files (ASCII plus NBSP/BOM). -/
def isSpaceJS (c : Char) : Bool :=
  c = ' ' || c = '\t' || c = '\n' || c = '\r' ||
  c = '\x0b' || c = '\x0c' || c = ' ' || c = '﻿'

/-- JavaScript regex `\w`: `[A-Za-z0-9_]`. -/
def isWordChar (c : Char) : Bool :=
  ('a' ≤ c && c ≤ 'z') || ('A' ≤ c && c ≤ 'Z') || ('0' ≤ c && c ≤ '9') || c = '_'

/-- Lower-case ASCII letters, for the regex lookahead `[a-z]`. -/
def isLowerAZ (c : Char) : Bool := 'a' ≤ c && c ≤ 'z'

/-- `String.prototype.toLowerCase` on the ASCII range (the only range the
claims exercise). -/
def lowerChar (c : Char) : Char :=
  if 'A' ≤ c && c ≤ 'Z' then Char.ofNat (c.toNat + 32) else c

def lowerStr (s : Str) : Str := s.map lowerChar

/-- `String.prototype.trim` (both ends). -/
def trimJS (s : Str) : Str :=
  ((s.dropWhile isSpaceJS).reverse.dropWhile isSpaceJS).reverse

/-- `String.prototype.trimStart`. -/
def trimStartJS (s : Str) : Str := s.dropWhile isSpaceJS

/-- `String.prototype.split(sep)` for a one-character separator. -/
def splitOnChar (sep : Char) : Str → List Str
  | [] => [[]]
  | c :: rest =>
    let r := splitOnChar sep rest
    if c = sep then [] :: r
    else match r with
      | [] => [[c]]
      | h :: t => (c :: h) :: t

/-- Index of the first occurrence of `pat` in `l` (JS `String.indexOf`). -/
def findSubIdx (pat : Str) : Str → Option Nat
  | [] => if pat.isPrefixOf ([] : Str) then some 0 else none
  | c :: rest =>
    if pat.isPrefixOf (c :: rest) then some 0
    else (findSubIdx pat rest).map (· + 1)

/-!
### `promptMatchesKeywords` (src/utils.ts lines 25-39)

The source lower-cases prompt and keyword, escapes the keyword's regex
metacharacters (so the keyword is matched literally) and tests
`new RegExp('\\b' + escaped, 'i')` against the lowered prompt.  The
embedding implements the semantics of that regex directly: the literal
keyword must occur at some position `i` of the prompt that is a regex
word boundary (`\b`: the characters at `i-1` and `i` differ in
`\w`-membership, positions outside the string counting as non-word).
-/

/-- Is `s[i]` a word character (`false` out of range)? -/
def wordAt (s : Str) (i : Nat) : Bool :=
  match s[i]? with
  | some c => isWordChar c
  | none => false

/-- JS regex `\b` holds at position `i` of subject `s`. -/
def boundaryAt (s : Str) (i : Nat) : Bool :=
  if i = 0 then wordAt s 0 else wordAt s i != wordAt s (i - 1)

/-- `new RegExp('\\b' + escape(kw)).test(s)` for a literal keyword `kw`. -/
def regexBoundaryTest (kw : Str) (s : Str) : Bool :=
  (List.range (s.length + 1)).any fun i => boundaryAt s i && kw.isPrefixOf (s.drop i)

/-- `promptMatchesKeywords` from src/utils.ts. -/
def promptMatchesKeywords (prompt : Str) (keywords : List Str) : Bool :=
  let lowerPrompt := lowerStr prompt
  keywords.any fun keyword => regexBoundaryTest (lowerStr keyword) lowerPrompt

/-!
### `parseRuleMetadata` (src/utils.ts lines 53-121)

The source extracts the frontmatter between the `---` markers and applies
the regex `/globs:\s*\n([\s\S]*?)(?=\n[a-z]|\n*$)/` (and the analogous
`keywords:` regex) to it.  The embedding implements that regex's
backtracking semantics:

* the match starts at the earliest occurrence of the literal key whose
  following whitespace run contains a newline;
* greedy `\s*` followed by `\n` consumes up to the last newline of that
  whitespace run;
* the lazy capture `([\s\S]*?)` ends at the earliest position where the
  lookahead holds: either the next two characters are a newline followed
  by a lower-case letter, or every remaining character is a newline
  (`\n*$`; JS `$` without the `m` flag only matches at the end of input).
-/

/-- The regex lookahead `(?=\n[a-z]|\n*$)` holds at the start of `l`. -/
def lookaheadOk (l : Str) : Bool :=
  (match l with
   | '\n' :: c :: _ => isLowerAZ c
   | _ => false) ||
  l.all (· = '\n')

/-- The lazy capture: the prefix of `l` up to the earliest position where
the lookahead holds (the lookahead always holds at the end of input). -/
def lazyCapture : Str → Str
  | [] => []
  | c :: rest => if lookaheadOk (c :: rest) then [] else c :: lazyCapture rest

/-- Index of the last `'\n'` inside the leading whitespace run of `l`
(the position the greedy `\s*\n` backtracks to), if any. -/
def lastNlInRun : Str → Option Nat
  | [] => none
  | c :: rest =>
    if isSpaceJS c then
      match lastNlInRun rest with
      | some i => some (i + 1)
      | none => if c = '\n' then some 0 else none
    else none

/-- Capture group of `/key:\s*\n([\s\S]*?)(?=\n[a-z]|\n*$)/` applied to
`l`, where `key` stands for the literal part before `\s*` (`"globs:"` or
`"keywords:"`); `none` when the regex does not match. -/
def keySectionCapture (key : Str) : Str → Option Str
  | [] => none
  | c :: rest =>
    if key.isPrefixOf (c :: rest) then
      match lastNlInRun ((c :: rest).drop key.length) with
      | some j => some (lazyCapture (((c :: rest).drop key.length).drop (j + 1)))
      | none => keySectionCapture key rest
    else keySectionCapture key rest

/-- `replace(/^["']|["']$/g, '')`: strip one leading and one trailing
quote character. -/
def stripQuotes (l : Str) : Str :=
  let l1 := match l with
    | c :: rest => if c = '"' || c = '\'' then rest else l
    | [] => l
  match l1.getLast? with
  | some c => if c = '"' || c = '\'' then l1.dropLast else l1
  | none => l1

/-- The item-extraction loop shared by the `globs` and `keywords` blocks:
split the captured section on newlines, keep lines whose trimmed form
starts with `"- "`, unquote and trim the remainder, drop empty results. -/
def extractItems (captured : Str) : List Str :=
  (splitOnChar '\n' captured).filterMap fun line =>
    let trimmed := trimJS line
    if ['-', ' '].isPrefixOf trimmed then
      let item := trimJS (stripQuotes (trimmed.drop 2))
      if item.isEmpty then none else some item
    else none

/-- Metadata extracted from rule-file frontmatter (`RuleMetadata`). -/
structure RuleMetadata where
  globs : Option (List Str)
  keywords : Option (List Str)
deriving DecidableEq, Repr

/-- One field of `parseRuleMetadata`: regex capture, item extraction, and
the `length > 0` guard before the field is set. -/
def parsedField (key : Str) (frontmatter : Str) : Option (List Str) :=
  match keySectionCapture key frontmatter with
  | none => none
  | some captured =>
    let items := extractItems captured
    if items.isEmpty then none else some items

/-- The frontmatter (between the `---` markers, trimmed), if present. -/
def frontmatterOf (content : Str) : Option Str :=
  if ['-', '-', '-'].isPrefixOf content then
    match findSubIdx ['-', '-', '-'] (content.drop 3) with
    | none => none
    | some i => some (trimJS ((content.drop 3).take i))
  else none

/-- `parseRuleMetadata` from src/utils.ts: `none` plays the role of the
source's `undefined` result. -/
def parseRuleMetadata (content : Str) : Option RuleMetadata :=
  match frontmatterOf content with
  | none => none
  | some frontmatter =>
    let globs := parsedField "globs:".toList frontmatter
    let keywords := parsedField "keywords:".toList frontmatter
    if globs.isSome || keywords.isSome then some ⟨globs, keywords⟩ else none

/-- `stripFrontmatter` from src/utils.ts. -/
def stripFrontmatter (content : Str) : Str :=
  if ['-', '-', '-'].isPrefixOf content then
    match findSubIdx ['-', '-', '-'] (content.drop 3) with
    | none => content
    | some i => trimStartJS ((content.drop 3).drop (i + 3))
  else content

/-- `path.basename` (POSIX): the part after the last separator, ignoring
trailing separators. -/
def basename (p : Str) : Str :=
  let q := (p.reverse.dropWhile (· = '/')).reverse
  match (splitOnChar '/' q).getLast? with
  | some last => if last.isEmpty then q else last
  | none => q

/-!
### `fileMatchesGlobs` and `readAndFormatRules` (src/utils.ts lines 13-15, 249-316)

`minimatch` is a third-party collaborator; it is supplied as a parameter
`m : Matcher` whose `Except.error` results model the exceptions it can
throw, which the source does not catch inside `fileMatchesGlobs` — they
propagate into the per-file `try`/`catch` of `readAndFormatRules`.
Likewise the file system (`readFileSync`) is a parameter `fs : FileSys`.
-/

/-- The `minimatch(filePath, glob, { matchBase: true })` collaborator. -/
abbrev Matcher := Str → Str → Except Unit Bool

/-- The `readFileSync(file, 'utf-8')` collaborator. -/
abbrev FileSys := Str → Except Unit Str

/-- `Array.prototype.some` with a fallible callback: left-to-right,
short-circuiting, exceptions propagate. -/
def anyE (f : α → Except Unit Bool) : List α → Except Unit Bool
  | [] => Except.ok false
  | x :: xs => do
    if (← f x) then pure true else anyE f xs

/-- `fileMatchesGlobs` from src/utils.ts: `globs.some(g => minimatch(filePath, g, ...))`. -/
def fileMatchesGlobs (m : Matcher) (filePath : Str) (globs : List Str) : Except Unit Bool :=
  anyE (fun glob => m filePath glob) globs

/-- JS truthiness of a `string | undefined` value. -/
def optStrTruthy : Option Str → Bool
  | some s => !s.isEmpty
  | none => false

/-- The per-rule applicability decision of `readAndFormatRules`
(src/utils.ts lines 266-297): `Except.ok true` means the rule's body is
included.  A rule with neither field is unconditional; otherwise the glob
test runs first (its exceptions propagate), then the keyword test, and
the rule is included iff either is true. -/
def ruleGate (m : Matcher) (metadata : Option RuleMetadata)
    (contextFilePaths : Option (List Str)) (userPrompt : Option Str) :
    Except Unit Bool :=
  let mGlobs := metadata.bind (·.globs)
  let mKeywords := metadata.bind (·.keywords)
  if mGlobs.isSome || mKeywords.isSome then do
    let globsMatch ←
      match mGlobs, contextFilePaths with
      | some globs, some paths =>
        if paths.length > 0 then
          anyE (fun contextPath => fileMatchesGlobs m contextPath globs) paths
        else pure false
      | _, _ => pure false
    let keywordsMatch :=
      match mKeywords with
      | some keywords =>
        if optStrTruthy userPrompt then
          promptMatchesKeywords (userPrompt.getD []) keywords
        else false
      | none => false
    pure (globsMatch || keywordsMatch)
  else pure true

/-- The body of the per-file `try` block of `readAndFormatRules`:
read the file, parse its metadata, decide applicability, and produce the
labelled section (`some`) or nothing (`none`, the `continue` case).
Any `Except.error` models an exception thrown inside the `try`. -/
def fileTryBody (fs : FileSys) (m : Matcher) (contextFilePaths : Option (List Str))
    (userPrompt : Option Str) (file : Str) : Except Unit (Option Str) := do
  let content ← fs file
  let metadata := parseRuleMetadata content
  let included ← ruleGate m metadata contextFilePaths userPrompt
  if included then
    pure (some (['#', '#', ' '] ++ basename file ++ ['\n', '\n'] ++ stripFrontmatter content))
  else
    pure none

/-- The per-file `try`/`catch`: an exception makes the file contribute
nothing (the `catch` only logs a warning). -/
def fileContribution (fs : FileSys) (m : Matcher) (contextFilePaths : Option (List Str))
    (userPrompt : Option Str) (file : Str) : Option Str :=
  match fileTryBody fs m contextFilePaths userPrompt file with
  | Except.ok r => r
  | Except.error _ => none

/-- The header prepended when at least one rule is included. -/
def rulesHeader : Str :=
  "# OpenCode Rules\n\nPlease follow the following rules:\n\n".toList

/-- The delimiter between rule sections. -/
def rulesSep : Str := "\n\n---\n\n".toList

/-- `readAndFormatRules` from src/utils.ts.  The return type records that
every fallible step is inside the per-file `try`; the function itself
throws only if code outside all `try` blocks could throw. -/
def readAndFormatRules (fs : FileSys) (m : Matcher) (files : List Str)
    (contextFilePaths : Option (List Str)) (userPrompt : Option Str) :
    Except Unit Str :=
  if files.isEmpty then Except.ok []
  else
    let ruleContents := files.filterMap (fileContribution fs m contextFilePaths userPrompt)
    if ruleContents.isEmpty then Except.ok []
    else Except.ok (rulesHeader ++ List.intercalate rulesSep ruleContents)

/-!
### Session state registry (plugin module)

`SessionState`, `sessionStateMap`, `sessionStateMax`, `sessionStateTick`
and `upsertSessionState` from the plugin module.  A JS `Map` is modelled
as an association list in insertion order (`Map.set` updates in place or
appends; iteration follows insertion order); the module-level mutable
variables are gathered into a `PluginState` record that every embedded
operation threads explicitly.
-/

/-- `SessionState` from the plugin module.  `contextPaths` models the JS
`Set` as its insertion-ordered list of distinct elements; absent optional
fields (`isCompacting`, `compactingSince`) are `false` / `none`;
`seedCount ?? 0` is a plain `Nat`. -/
structure SessionState where
  contextPaths : List Str
  lastUserPrompt : Option Str
  lastUpdated : Nat
  isCompacting : Bool
  compactingSince : Option Nat
  seededFromHistory : Bool
  seedCount : Nat
deriving DecidableEq, Repr

/-- `SessionContext` (the legacy `sessionContextMap` payload). -/
structure SessionContext where
  filePaths : List Str
  userPrompt : Option Str
deriving DecidableEq, Repr

/-- The module-level mutable state of the plugin. -/
structure PluginState where
  registry : List (String × SessionState)
  contextMap : List (String × SessionContext)
  tick : Nat
  maxSize : Nat
deriving DecidableEq, Repr

/-- `Map.prototype.get`. -/
def lookupMap (l : List (String × α)) (k : String) : Option α :=
  match l with
  | [] => none
  | (k', v) :: rest => if k' = k then some v else lookupMap rest k

/-- `Map.prototype.set`: update in place, or append a new key. -/
def setMap (l : List (String × α)) (k : String) (v : α) : List (String × α) :=
  match l with
  | [] => [(k, v)]
  | (k', v') :: rest => if k' = k then (k, v) :: rest else (k', v') :: setMap rest k v

/-- `Map.prototype.delete`. -/
def eraseKeyMap (l : List (String × α)) (k : String) : List (String × α) :=
  match l with
  | [] => []
  | (k', v) :: rest => if k' = k then rest else (k', v) :: eraseKeyMap rest k

/-- `Set.prototype.add`: append if not already present. -/
def insertSet (x : Str) (l : List Str) : List Str :=
  if x ∈ l then l else l ++ [x]

/-- `createDefaultSessionState` (the `++sessionStateTick` is accounted
for by the caller passing the incremented tick). -/
def createDefaultSessionState (tick : Nat) : SessionState :=
  { contextPaths := []
    lastUserPrompt := none
    lastUpdated := tick
    isCompacting := false
    compactingSince := none
    seededFromHistory := false
    seedCount := 0 }

/-- The look-up-or-create, mutate, and re-stamp part of
`upsertSessionState` (before the pruning loop). -/
def upsertCore (sessionID : String) (mutator : SessionState → SessionState)
    (st : PluginState) : PluginState :=
  match lookupMap st.registry sessionID with
  | some s =>
    let s1 := mutator s
    { st with
        registry := setMap st.registry sessionID { s1 with lastUpdated := st.tick + 1 }
        tick := st.tick + 1 }
  | none =>
    let s0 := createDefaultSessionState (st.tick + 1)
    let s1 := mutator s0
    { st with
        registry := st.registry ++ [(sessionID, { s1 with lastUpdated := st.tick + 2 })]
        tick := st.tick + 2 }

/-- The scan for the entry with the smallest `lastUpdated` (strict `<`
against the running best, so the first minimal entry in iteration order
wins). -/
def findOldestGo (acc : Option (String × Nat)) :
    List (String × SessionState) → Option String
  | [] => acc.map (·.1)
  | (id, s) :: rest =>
    match acc with
    | none => findOldestGo (some (id, s.lastUpdated)) rest
    | some (oid, ot) =>
      if s.lastUpdated < ot then findOldestGo (some (id, s.lastUpdated)) rest
      else findOldestGo (some (oid, ot)) rest

def findOldest (entries : List (String × SessionState)) : Option String :=
  findOldestGo none entries

/-- One iteration of the pruning loop: delete the oldest entry. -/
def pruneOnce (entries : List (String × SessionState)) : List (String × SessionState) :=
  match findOldest entries with
  | some oldestID => eraseKeyMap entries oldestID
  | none => entries

/-- The `while (sessionStateMap.size > sessionStateMax)` loop; each
iteration removes one entry, so the entry count is sufficient fuel. -/
def pruneLoop (maxSize : Nat) : Nat → List (String × SessionState) → List (String × SessionState)
  | 0, entries => entries
  | fuel + 1, entries =>
    if entries.length > maxSize then pruneLoop maxSize fuel (pruneOnce entries)
    else entries

/-- `upsertSessionState` from the plugin module. -/
def upsertSessionState (sessionID : String) (mutator : SessionState → SessionState)
    (st : PluginState) : PluginState :=
  let st1 := upsertCore sessionID mutator st
  { st1 with registry := pruneLoop st1.maxSize st1.registry.length st1.registry }

/-!
### Path normalization and sanitization (plugin module)

`normalizeContextPath` uses Node's POSIX `path.isAbsolute` /
`path.relative`; both plugin inputs (`projectDirectory`) and the guarded
argument are absolute when `path.relative` runs, which is the situation
the embedding implements.  On POSIX `path.sep` is `'/'`, so the final
`rel.split(path.sep).join('/')` is the identity and is modelled as such.
-/

/-- POSIX `path.isAbsolute`. -/
def isAbsolutePath (p : Str) : Bool :=
  match p with
  | '/' :: _ => true
  | _ => false

/-- Normalize an absolute path into its segment list, resolving `.`,
`..` and empty segments the way Node's `path.resolve` does. -/
def normSegs (p : Str) : List Str :=
  (splitOnChar '/' p).foldl
    (fun acc seg =>
      if seg.isEmpty || seg = ['.'] then acc
      else if seg = ['.', '.'] then acc.dropLast
      else acc ++ [seg])
    []

/-- Drop the longest common prefix of two segment lists. -/
def dropCommonPrefix : List Str → List Str → List Str × List Str
  | a :: as, b :: bs =>
    if a = b then dropCommonPrefix as bs else (a :: as, b :: bs)
  | as, bs => (as, bs)

/-- POSIX `path.relative` for absolute `fromP` and `toP`. -/
def pathRelative (fromP toP : Str) : Str :=
  let (fRest, tRest) := dropCommonPrefix (normSegs fromP) (normSegs toP)
  List.intercalate ['/'] (fRest.map (fun _ => ['.', '.']) ++ tRest)

/-- `normalizeContextPath` from the plugin module. -/
def normalizeContextPath (p : Str) (baseDir : Str) : Str :=
  if !isAbsolutePath p then p
  else pathRelative baseDir p

/-- `sanitizePathForContext` from the plugin module:
`p.replace(/[\r\n\t]/g, ' ').slice(0, 300)`. -/
def sanitizePathForContext (p : Str) : Str :=
  (p.map fun c => if c = '\r' || c = '\n' || c = '\t' then ' ' else c).take 300

/-!
### JS string ordering (`Array.prototype.sort` default comparator)

The default comparator orders strings lexicographically by code unit.
`Array.from(set).sort()` on distinct elements returns the unique sorted
permutation, which the embedding computes with insertion sort.
-/

/-- Lexicographic code-point comparison between strings (the JS `<`/`>`
string ordering on the claims' character repertoire). -/
def jsLeB : Str → Str → Bool
  | [], _ => true
  | _ :: _, [] => false
  | a :: as, b :: bs =>
    if a.toNat < b.toNat then true
    else if b.toNat < a.toNat then false
    else jsLeB as bs

def jsLe (a b : Str) : Prop := jsLeB a b = true

instance : DecidableRel jsLe := fun a b => inferInstanceAs (Decidable (jsLeB a b = true))

/-- `Array.from(set).sort()`. -/
def jsSort (l : List Str) : List Str := List.insertionSort jsLe l

/-!
### The `messages.transform` seeding hook and the compacting hook

Messages carry a `sessionID` in `info` or in their parts.  The path and
prompt extraction functions (`extractFilePathsFromMessages`,
`extractLatestUserPrompt`) are pure collaborators whose code the hooks
only invoke; the hooks are embedded with them as parameters, so every
theorem below holds for all extraction functions.
-/

/-- The message fields `extractSessionID` inspects. -/
structure MsgPart where
  sessionID : Option String
deriving DecidableEq, Repr

structure Msg where
  infoSessionID : Option String
  parts : List MsgPart
deriving DecidableEq, Repr

/-- `extractSessionID` from the plugin module: first `info.sessionID`,
else the first part-level `sessionID`, scanning messages in order. -/
def extractSessionID (messages : List Msg) : Option String :=
  match messages with
  | [] => none
  | msg :: rest =>
    match msg.infoSessionID with
    | some sid => some sid
    | none =>
      match msg.parts.findSome? (·.sessionID) with
      | some sid => some sid
      | none => extractSessionID rest

/-- The mutator passed to `upsertSessionState` by the seeding hook. -/
def seedMutator (contextPaths : List Str) (userPrompt : Option Str)
    (state : SessionState) : SessionState :=
  let state1 := { state with contextPaths := contextPaths.foldl (fun acc p => insertSet p acc) state.contextPaths }
  let state2 :=
    if optStrTruthy userPrompt && !(optStrTruthy state1.lastUserPrompt) then
      { state1 with lastUserPrompt := userPrompt }
    else state1
  { state2 with seededFromHistory := true, seedCount := state2.seedCount + 1 }

/-- The `experimental.chat.messages.transform` hook.  The returned `Bool`
records whether this call rescanned the message history (i.e. invoked the
extraction functions).  The hook never alters the messages themselves;
only the plugin state changes. -/
def messagesTransform (extractPaths : List Msg → List Str)
    (extractPrompt : List Msg → Option Str)
    (messages : List Msg) (st : PluginState) : PluginState × Bool :=
  match extractSessionID messages with
  | none => (st, false)
  | some sessionID =>
    match lookupMap st.registry sessionID with
    | some existing =>
      if existing.seededFromHistory then (st, false)
      else
        let contextPaths := extractPaths messages
        let userPrompt := extractPrompt messages
        let st1 := upsertSessionState sessionID (seedMutator contextPaths userPrompt) st
        ({ st1 with contextMap := setMap st1.contextMap sessionID ⟨contextPaths, userPrompt⟩ }, true)
    | none =>
      let contextPaths := extractPaths messages
      let userPrompt := extractPrompt messages
      let st1 := upsertSessionState sessionID (seedMutator contextPaths userPrompt) st
      ({ st1 with contextMap := setMap st1.contextMap sessionID ⟨contextPaths, userPrompt⟩ }, true)

/-- Fixed lines of the compaction context block. -/
def compactionHeader : List Str :=
  ["OpenCode Rules: Working context".toList,
   "Current file paths in context:".toList]

/-- `  - ` item line. -/
def compactionItemLine (p : Str) : Str :=
  [' ', ' ', '-', ' '] ++ sanitizePathForContext p

/-- `  ... and K more paths` marker line. -/
def compactionMoreLine (k : Nat) : Str :=
  "  ... and ".toList ++ (Nat.repr k).toList ++ " more paths".toList

/-- The `experimental.session.compacting` hook: returns the updated
plugin state and the hook's `output.context` array. -/
def compactingHook (sessionID : Option String) (st : PluginState)
    (outContext : List Str) (now : Nat) : PluginState × List Str :=
  match sessionID with
  | none => (st, outContext)
  | some sid =>
    match lookupMap st.registry sid with
    | none => (st, outContext)
    | some sessionState =>
      if sessionState.contextPaths.length = 0 then (st, outContext)
      else
        let st1 := upsertSessionState sid
          (fun state => { state with isCompacting := true, compactingSince := some now }) st
        let sortedPaths := jsSort sessionState.contextPaths
        let pathsToInclude := sortedPaths.take 20
        let contextString := List.intercalate ['\n']
          (compactionHeader ++ pathsToInclude.map compactionItemLine ++
            (if sortedPaths.length > 20 then [compactionMoreLine (sortedPaths.length - 20)] else []))
        (st1, outContext ++ [contextString])

/-!
## Matching-engine theorems
-/

/-- A total pattern matcher, lifted to the fallible collaborator type. -/
def liftMatcher (m0 : Str → Str → Bool) : Matcher :=
  fun filePath glob => Except.ok (m0 filePath glob)

@[simp] theorem exceptOkBind (a : α) (f : α → Except Unit β) :
    (Except.ok a >>= f) = f a := rfl

@[simp] theorem exceptErrBind (e : Unit) (f : α → Except Unit β) :
    (Except.error e >>= f : Except Unit β) = Except.error e := rfl

@[simp] theorem exceptPureEq (a : α) : (pure a : Except Unit α) = Except.ok a := rfl

theorem anyE_lift (f : α → Bool) (l : List α) :
    anyE (fun x => Except.ok (f x)) l = Except.ok (l.any f) := by
  induction l with
  | nil => rfl
  | cons x xs ih =>
    simp only [anyE, List.any_cons, exceptOkBind]
    cases h : f x <;> simp [h, ih]

theorem fileMatchesGlobs_lift (m0 : Str → Str → Bool) (p : Str) (globs : List Str) :
    fileMatchesGlobs (liftMatcher m0) p globs = Except.ok (globs.any (m0 p)) := by
  simpa [fileMatchesGlobs, liftMatcher] using anyE_lift (fun g => m0 p g) globs

theorem anyE_fileMatches_lift (m0 : Str → Str → Bool) (globs : List Str) (paths : List Str) :
    anyE (fun p => fileMatchesGlobs (liftMatcher m0) p globs) paths =
      Except.ok (paths.any (fun p => globs.any (m0 p))) := by
  have h : (fun p => fileMatchesGlobs (liftMatcher m0) p globs) =
      (fun p => Except.ok ((fun q => globs.any (m0 q)) p)) := by
    funext p; exact fileMatchesGlobs_lift m0 p globs
  rw [h, anyE_lift]

/-- C1: For every rule and every context, the rule applies iff it has
neither a globs nor a keywords condition, or its glob test succeeds
(some context path matches some pattern), or its keyword test succeeds
(some keyword matches the prompt); each test defaults to false when its
condition is absent or its required context (path list or prompt) is
empty, and the two tests are combined by OR, never by AND. -/
theorem ruleGate_or_semantics (m0 : Str → Str → Bool) (metadata : Option RuleMetadata)
    (contextFilePaths : Option (List Str)) (userPrompt : Option Str) :
    ruleGate (liftMatcher m0) metadata contextFilePaths userPrompt = Except.ok true ↔
      ((metadata.bind (·.globs) = none ∧ metadata.bind (·.keywords) = none) ∨
       (∃ globs paths, metadata.bind (·.globs) = some globs ∧
          contextFilePaths = some paths ∧
          ∃ p ∈ paths, ∃ g ∈ globs, m0 p g = true) ∨
       (∃ keywords prompt, metadata.bind (·.keywords) = some keywords ∧
          userPrompt = some prompt ∧ prompt ≠ [] ∧
          promptMatchesKeywords prompt keywords = true)) := by
  rcases hG : metadata.bind (·.globs) with _ | globs <;>
    rcases hK : metadata.bind (·.keywords) with _ | keywords <;>
      rcases contextFilePaths with _ | ⟨_ | ⟨p0, ps⟩⟩ <;>
        rcases userPrompt with _ | prompt <;>
          simp [ruleGate, hG, hK, anyE_fileMatches_lift, optStrTruthy, Option.getD,
            List.isEmpty_iff, List.any_eq_true]


theorem isPrefixOf_drop_getElem {kw lp : Str} {i : Nat} {c : Char} {cs : Str}
    (hkw : kw = c :: cs) (hpre : kw.isPrefixOf (lp.drop i) = true) :
    lp[i]? = some c := by
  rw [List.isPrefixOf_iff_prefix] at hpre
  rcases hpre with ⟨t, ht⟩
  have h0 : (lp.drop i)[0]? = some c := by
    rw [← ht, hkw]; simp
  rw [List.getElem?_drop] at h0
  simpa using h0

theorem wordAt_of_prefix {kw lp : Str} {i : Nat} {c : Char} {cs : Str}
    (hkw : kw = c :: cs) (hc : isWordChar c = true)
    (hpre : kw.isPrefixOf (lp.drop i) = true) :
    wordAt lp i = true := by
  unfold wordAt
  rw [isPrefixOf_drop_getElem hkw hpre]
  exact hc

theorem lt_length_of_prefix {kw lp : Str} {i : Nat} {c : Char} {cs : Str}
    (hkw : kw = c :: cs) (hpre : kw.isPrefixOf (lp.drop i) = true) :
    i < lp.length := by
  have h := isPrefixOf_drop_getElem hkw hpre
  by_contra hle
  rw [List.getElem?_eq_none (by omega)] at h
  exact Option.noConfusion h

/-- For a word-initial keyword, the embedded regex test (`\b` + literal
keyword) is exactly: the keyword occurs at some position whose preceding
character is absent or not a word character. -/
theorem regexBoundaryTest_characterization (kw lp : Str) (c : Char) (cs : Str)
    (hkw : kw = c :: cs) (hc : isWordChar c = true) :
    regexBoundaryTest kw lp = true ↔
      ∃ i, kw.isPrefixOf (lp.drop i) = true ∧
        (i = 0 ∨ wordAt lp (i - 1) = false) := by
  unfold regexBoundaryTest
  rw [List.any_eq_true]
  constructor
  · rintro ⟨i, _, hi⟩
    rw [Bool.and_eq_true] at hi
    rcases hi with ⟨hb, hpre⟩
    refine ⟨i, hpre, ?_⟩
    by_cases hi0 : i = 0
    · exact Or.inl hi0
    · right
      unfold boundaryAt at hb
      rw [if_neg hi0, wordAt_of_prefix hkw hc hpre] at hb
      have hx := bne_iff_ne.mp hb
      exact Bool.eq_false_iff.mpr (Ne.symm hx)
  · rintro ⟨i, hpre, hb⟩
    refine ⟨i, ?_, ?_⟩
    · exact List.mem_range.mpr (by have := lt_length_of_prefix hkw hpre; omega)
    · rw [Bool.and_eq_true]
      refine ⟨?_, hpre⟩
      unfold boundaryAt
      by_cases hi0 : i = 0
      · rw [if_pos hi0]
        subst hi0
        exact wordAt_of_prefix hkw hc hpre
      · rw [if_neg hi0, wordAt_of_prefix hkw hc hpre]
        rcases hb with h0 | hw
        · exact absurd h0 hi0
        · rw [hw]
          rfl

/-- A keyword whose (lowered) first character is a word character — the
typical shape, and the one for which `\b` means "left word boundary". -/
def wordInitial (kw : Str) : Bool :=
  match lowerStr kw with
  | [] => false
  | c :: _ => isWordChar c

theorem wordInitial_cons {kw : Str} (h : wordInitial kw = true) :
    ∃ c cs, lowerStr kw = c :: cs ∧ isWordChar c = true := by
  unfold wordInitial at h
  cases hlk : lowerStr kw with
  | nil => rw [hlk] at h; exact absurd h (by simp)
  | cons c cs => rw [hlk] at h; exact ⟨c, cs, rfl, h⟩

/-- C4: the keyword test succeeds iff some keyword occurs in the prompt
at a left word boundary, case-insensitively, with arbitrary continuation
after the keyword (stated for word-initial keywords, where the regex
`\b` prefix means exactly "left word boundary"); and concretely, keyword
`test` matches the prompts `let's write a test` and `testing mode` but
not `contest`. -/
theorem promptMatchesKeywords_wordBoundary :
    (∀ (prompt : Str) (keywords : List Str),
      (∀ kw ∈ keywords, wordInitial kw = true) →
      (promptMatchesKeywords prompt keywords = true ↔
        ∃ kw ∈ keywords, ∃ i,
          (lowerStr kw).isPrefixOf ((lowerStr prompt).drop i) = true ∧
          (i = 0 ∨ wordAt (lowerStr prompt) (i - 1) = false))) ∧
    promptMatchesKeywords ("let".toList ++ ['\''] ++ "s write a test".toList)
      ["test".toList] = true ∧
    promptMatchesKeywords "testing mode".toList ["test".toList] = true ∧
    promptMatchesKeywords "contest".toList ["test".toList] = false := by
  refine ⟨?_, by decide, by decide, by decide⟩
  intro prompt keywords hw
  unfold promptMatchesKeywords
  rw [List.any_eq_true]
  constructor
  · rintro ⟨kw, hmem, htest⟩
    rcases wordInitial_cons (hw kw hmem) with ⟨c, cs, hkw, hc⟩
    rcases (regexBoundaryTest_characterization _ _ c cs hkw hc).mp htest with ⟨i, hpre, hb⟩
    exact ⟨kw, hmem, i, hpre, hb⟩
  · rintro ⟨kw, hmem, i, hpre, hb⟩
    rcases wordInitial_cons (hw kw hmem) with ⟨c, cs, hkw, hc⟩
    exact ⟨kw, hmem, (regexBoundaryTest_characterization _ _ c cs hkw hc).mpr ⟨i, hpre, hb⟩⟩

/-- Witness for `promptMatchesKeywords_wordBoundary`: the
characterization applied at the concrete prompt `testing mode` and
keyword list `[test]`. -/
theorem promptMatchesKeywords_wordBoundary_witness :
    promptMatchesKeywords "testing mode".toList ["test".toList] = true :=
  (promptMatchesKeywords_wordBoundary.1 "testing mode".toList ["test".toList]
      (by decide)).mpr ⟨"test".toList, by decide, 0, by decide, Or.inl rfl⟩

/-!
## Formatter theorems
-/

theorem fileContribution_eq_none_of_error {fs : FileSys} {m : Matcher}
    {cps : Option (List Str)} {up : Option Str} {file : Str}
    (h : fs file = Except.error ()) :
    fileContribution fs m cps up file = none := by
  unfold fileContribution fileTryBody
  rw [h]
  rfl

theorem fileContribution_eq_none_of_gate_false {fs : FileSys} {m : Matcher}
    {cps : Option (List Str)} {up : Option Str} {file content : Str}
    (hc : fs file = Except.ok content)
    (hg : ruleGate m (parseRuleMetadata content) cps up = Except.ok false) :
    fileContribution fs m cps up file = none := by
  unfold fileContribution fileTryBody
  rw [hc]
  simp [hg]

theorem filterMap_contribution_nil {fs : FileSys} {m : Matcher}
    {cps : Option (List Str)} {up : Option Str} {files : List Str}
    (h : ∀ f ∈ files, fileContribution fs m cps up f = none) :
    files.filterMap (fileContribution fs m cps up) = [] := by
  induction files with
  | nil => rfl
  | cons f fsx ih =>
    rw [List.filterMap_cons, h f (List.mem_cons_self f fsx)]
    exact ih fun g hg => h g (List.mem_cons_of_mem f hg)

/-- C6: the consumption operation never throws, and it returns exactly
the empty string — never a header block with an empty body — when the
rule store supplies zero files, when every supplied file is unreadable,
or when no rule's conditions match the current context. -/
theorem readAndFormatRules_empty_cases (fs : FileSys) (m : Matcher)
    (files : List Str) (cps : Option (List Str)) (up : Option Str) :
    (∃ s, readAndFormatRules fs m files cps up = Except.ok s) ∧
    (files = [] → readAndFormatRules fs m files cps up = Except.ok []) ∧
    ((∀ f ∈ files, fs f = Except.error ()) →
      readAndFormatRules fs m files cps up = Except.ok []) ∧
    ((∀ f ∈ files, ∀ content, fs f = Except.ok content →
        ruleGate m (parseRuleMetadata content) cps up = Except.ok false) →
      readAndFormatRules fs m files cps up = Except.ok []) := by
  refine ⟨?_, ?_, ?_, ?_⟩
  · unfold readAndFormatRules
    split
    · exact ⟨_, rfl⟩
    · by_cases hrc : (files.filterMap (fileContribution fs m cps up)).isEmpty = true
      · exact ⟨[], by simp [hrc]⟩
      · exact ⟨rulesHeader ++ List.intercalate rulesSep
            (files.filterMap (fileContribution fs m cps up)), by simp [hrc]⟩
  · intro h
    subst h
    rfl
  · intro h
    unfold readAndFormatRules
    split
    · rfl
    · rw [filterMap_contribution_nil fun f hf => fileContribution_eq_none_of_error (h f hf)]
      rfl
  · intro h
    unfold readAndFormatRules
    split
    · rfl
    · rw [filterMap_contribution_nil ?_]
      · rfl
      · intro f hf
        cases hread : fs f with
        | error e => cases e; exact fileContribution_eq_none_of_error hread
        | ok content =>
          exact fileContribution_eq_none_of_gate_false hread (h f hf content hread)

/-- Witness for `readAndFormatRules_empty_cases`: one unreadable rule
file yields exactly the empty string. -/
theorem readAndFormatRules_empty_cases_witness :
    readAndFormatRules (fun _ => Except.error ()) (liftMatcher fun _ _ => false)
      ["a.md".toList] none none = Except.ok [] :=
  (readAndFormatRules_empty_cases (fun _ => Except.error ())
      (liftMatcher fun _ _ => false) ["a.md".toList] none none).2.2.1
    (fun _ _ => rfl)

/-!
## Malformed-pattern behaviour (claim C5)

`fileMatchesGlobs` contains no `try`/`catch`: an exception thrown by the
pattern matcher for one pattern propagates out of `fileMatchesGlobs` and
out of the `.some(...)` loops into the per-file `try`/`catch` of
`readAndFormatRules`, which skips the entire rule.  The concrete matcher
below is one possible behaviour of the external `minimatch`
collaborator: it throws on the single pattern `badpat` and matches by
literal comparison otherwise.
-/

/-- A matcher instance that fails to evaluate the pattern `badpat`. -/
def failingMatcher : Matcher := fun filePath glob =>
  if glob = "badpat".toList then Except.error ()
  else Except.ok (filePath = glob)

/-- A rule whose glob list holds the failing pattern and whose keyword
list holds `test`. -/
def c5RuleContent : Str :=
  "---\nglobs:\n- badpat\nkeywords:\n- test\n---\nBe careful.".toList

/-- A rule store with that single rule. -/
def c5FileSys : FileSys := fun _ => Except.ok c5RuleContent

/-- Counterexample to C5 as stated: the rule's keyword condition matches
the prompt (`test` occurs in `a test`), so per the claim the rule should
still be applied when one glob pattern fails to evaluate; but the
exception escapes `fileMatchesGlobs`, the per-file handler skips the
whole rule, and the result is the empty string. -/
theorem malformedPattern_skips_whole_rule_counterexample :
    (parseRuleMetadata c5RuleContent).bind (·.keywords) = some ["test".toList] ∧
    promptMatchesKeywords "a test".toList ["test".toList] = true ∧
    failingMatcher "src/a.ts".toList "badpat".toList = Except.error () ∧
    readAndFormatRules c5FileSys failingMatcher ["r.mdc".toList]
      (some ["src/a.ts".toList]) (some "a test".toList) = Except.ok [] := by
  refine ⟨rfl, by decide, rfl, rfl⟩

theorem filterMap_filter_ne {fs : FileSys} {m : Matcher}
    {cps : Option (List Str)} {up : Option Str} {f : Str} (files : List Str)
    (h : fileContribution fs m cps up f = none) :
    files.filterMap (fileContribution fs m cps up) =
      (files.filter fun g => decide (g ≠ f)).filterMap (fileContribution fs m cps up) := by
  induction files with
  | nil => rfl
  | cons g rest ih =>
    by_cases hg : g = f
    · subst hg
      simp [List.filterMap_cons, List.filter_cons, h, ih]
    · simp [List.filterMap_cons, List.filter_cons, hg, ih]

/-- C5 (amended): when one of a rule's glob patterns fails to evaluate,
the per-file handler treats that entire rule as non-contributing for the
turn — its remaining patterns and keyword condition are not consulted —
while every other rule evaluates as if the failing rule were absent, and
no exception escapes `readAndFormatRules`. -/
theorem malformedPattern_skips_whole_rule (fs : FileSys) (m : Matcher)
    (files : List Str) (cps : Option (List Str)) (up : Option Str) (f : Str)
    (hf : fileTryBody fs m cps up f = Except.error ()) :
    fileContribution fs m cps up f = none ∧
    readAndFormatRules fs m files cps up =
      (if files.isEmpty then Except.ok [] else
        readAndFormatRules fs m (files.filter fun g => decide (g ≠ f)) cps up) ∧
    (∃ s, readAndFormatRules fs m files cps up = Except.ok s) := by
  have hnone : fileContribution fs m cps up f = none := by
    unfold fileContribution
    rw [hf]
  refine ⟨hnone, ?_, ?_⟩
  · by_cases hempty : files.isEmpty = true
    · rw [if_pos hempty]
      unfold readAndFormatRules
      rw [if_pos hempty]
    · rw [if_neg hempty]
      have hfm := filterMap_filter_ne files hnone
      have key : ∀ (l : List Str), l.isEmpty = false →
          readAndFormatRules fs m l cps up =
            if (l.filterMap (fileContribution fs m cps up)).isEmpty = true then Except.ok []
            else Except.ok (rulesHeader ++
              List.intercalate rulesSep (l.filterMap (fileContribution fs m cps up))) := by
        intro l hl
        unfold readAndFormatRules
        rw [if_neg (by simp [hl])]
      rw [key files (by simpa using hempty)]
      by_cases hflt : (files.filter fun g => decide (g ≠ f)) = []
      · have hnil : files.filterMap (fileContribution fs m cps up) = [] := by
          rw [hfm, hflt]
          rfl
        rw [hflt]
        simp [readAndFormatRules, hnil]
      · rw [key _ (by simpa [List.isEmpty_iff] using hflt), hfm]
  · unfold readAndFormatRules
    split
    · exact ⟨_, rfl⟩
    · by_cases hrc : (files.filterMap (fileContribution fs m cps up)).isEmpty = true
      · exact ⟨[], by simp [hrc]⟩
      · exact ⟨rulesHeader ++ List.intercalate rulesSep
            (files.filterMap (fileContribution fs m cps up)), by simp [hrc]⟩

/-- Witness for `malformedPattern_skips_whole_rule`, at the concrete
failing-pattern rule store. -/
theorem malformedPattern_skips_whole_rule_witness :
    fileContribution c5FileSys failingMatcher (some ["src/a.ts".toList])
      (some "a test".toList) "r.mdc".toList = none :=
  (malformedPattern_skips_whole_rule c5FileSys failingMatcher ["r.mdc".toList]
      (some ["src/a.ts".toList]) (some "a test".toList) "r.mdc".toList
      rfl).1

/-!
## Parser theorems (claim C10)
-/

theorem parsedField_ne_some_nil (key fm : Str) : parsedField key fm ≠ some [] := by
  intro hcontra
  unfold parsedField at hcontra
  cases h : keySectionCapture key fm with
  | none =>
    rw [h] at hcontra
    exact Option.noConfusion hcontra
  | some cap =>
    rw [h] at hcontra
    dsimp only at hcontra
    by_cases hi : (extractItems cap).isEmpty = true
    · rw [if_pos hi] at hcontra
      exact Option.noConfusion hcontra
    · rw [if_neg hi] at hcontra
      rw [Option.some_inj] at hcontra
      rw [hcontra] at hi
      exact hi rfl

theorem parsedField_eq_none_of_items_nil {key fm cap : Str}
    (hcap : keySectionCapture key fm = some cap)
    (hitems : extractItems cap = []) :
    parsedField key fm = none := by
  unfold parsedField
  rw [hcap]
  dsimp only
  rw [hitems]
  rfl

theorem ruleGate_unconditional {m : Matcher} {md : Option RuleMetadata}
    {cps : Option (List Str)} {up : Option Str}
    (hg : md.bind (·.globs) = none) (hk : md.bind (·.keywords) = none) :
    ruleGate m md cps up = Except.ok true := by
  unfold ruleGate
  simp [hg, hk]

theorem parseRuleMetadata_globs_eq_parsedField (content : Str) :
    (parseRuleMetadata content).bind (·.globs) =
      match frontmatterOf content with
      | none => none
      | some fm => parsedField "globs:".toList fm := by
  unfold parseRuleMetadata
  cases frontmatterOf content with
  | none => rfl
  | some fm =>
    dsimp only
    by_cases hG : (parsedField "globs:".toList fm).isSome = true
    · rw [if_pos (by simp only [Bool.or_eq_true]; exact Or.inl hG)]
      rfl
    · by_cases hK : (parsedField "keywords:".toList fm).isSome = true
      · rw [if_pos (by simp only [Bool.or_eq_true]; exact Or.inr hK)]
        rfl
      · rw [if_neg (by simp only [Bool.or_eq_true]; rintro (h | h); exacts [hG h, hK h])]
        simp only [Option.not_isSome_iff_eq_none] at hG
        rw [hG]
        rfl

theorem parseRuleMetadata_keywords_eq_parsedField (content : Str) :
    (parseRuleMetadata content).bind (·.keywords) =
      match frontmatterOf content with
      | none => none
      | some fm => parsedField "keywords:".toList fm := by
  unfold parseRuleMetadata
  cases frontmatterOf content with
  | none => rfl
  | some fm =>
    dsimp only
    by_cases hK : (parsedField "keywords:".toList fm).isSome = true
    · rw [if_pos (by simp only [Bool.or_eq_true]; exact Or.inr hK)]
      rfl
    · by_cases hG : (parsedField "globs:".toList fm).isSome = true
      · rw [if_pos (by simp only [Bool.or_eq_true]; exact Or.inl hG)]
        rfl
      · rw [if_neg (by simp only [Bool.or_eq_true]; rintro (h | h); exacts [hG h, hK h])]
        simp only [Option.not_isSome_iff_eq_none] at hK
        rw [hK]
        rfl

/-- C10: a `globs:` (or `keywords:`) key whose captured section yields
zero valid list items is omitted from the parsed metadata — the parser
never returns an empty list for either field — and a rule in which both
fields are omitted passes the applicability gate unconditionally. -/
theorem parseRuleMetadata_no_empty_lists (content fm cap : Str) :
    ((parseRuleMetadata content).bind (·.globs) ≠ some []) ∧
    ((parseRuleMetadata content).bind (·.keywords) ≠ some []) ∧
    (frontmatterOf content = some fm →
      keySectionCapture "globs:".toList fm = some cap →
      extractItems cap = [] →
      (parseRuleMetadata content).bind (·.globs) = none) ∧
    (frontmatterOf content = some fm →
      keySectionCapture "keywords:".toList fm = some cap →
      extractItems cap = [] →
      (parseRuleMetadata content).bind (·.keywords) = none) ∧
    ((parseRuleMetadata content).bind (·.globs) = none →
      (parseRuleMetadata content).bind (·.keywords) = none →
      ∀ (m : Matcher) (cps : Option (List Str)) (up : Option Str),
        ruleGate m (parseRuleMetadata content) cps up = Except.ok true) := by
  refine ⟨?_, ?_, ?_, ?_, ?_⟩
  · rw [parseRuleMetadata_globs_eq_parsedField]
    cases frontmatterOf content with
    | none => simp
    | some fm0 => exact parsedField_ne_some_nil _ fm0
  · rw [parseRuleMetadata_keywords_eq_parsedField]
    cases frontmatterOf content with
    | none => simp
    | some fm0 => exact parsedField_ne_some_nil _ fm0
  · intro hfm hcap hitems
    rw [parseRuleMetadata_globs_eq_parsedField, hfm]
    exact parsedField_eq_none_of_items_nil hcap hitems
  · intro hfm hcap hitems
    rw [parseRuleMetadata_keywords_eq_parsedField, hfm]
    exact parsedField_eq_none_of_items_nil hcap hitems
  · intro hg hk m cps up
    exact ruleGate_unconditional hg hk

/-- Witness for `parseRuleMetadata_no_empty_lists`: a rule file whose
`globs:` block holds only an empty quoted item gets no `globs` field and
applies unconditionally. -/
theorem parseRuleMetadata_no_empty_lists_witness :
    (parseRuleMetadata "---\nglobs:\n- \"\"\n---\nbody".toList).bind (·.globs) = none ∧
    ruleGate (liftMatcher fun _ _ => false)
      (parseRuleMetadata "---\nglobs:\n- \"\"\n---\nbody".toList)
      (some ["x.ts".toList]) (some "y".toList) = Except.ok true := by
  have h := parseRuleMetadata_no_empty_lists "---\nglobs:\n- \"\"\n---\nbody".toList
    "globs:\n- \"\"".toList "- \"\"".toList
  refine ⟨h.2.2.1 rfl rfl rfl, h.2.2.2.2 (h.2.2.1 rfl rfl rfl) rfl _ _ _⟩

/-!
## Session registry lemmas
-/

theorem lookupMap_setMap_self (l : List (String × α)) (k : String) (v : α) :
    lookupMap (setMap l k v) k = some v := by
  induction l with
  | nil => simp [setMap, lookupMap]
  | cons e rest ih =>
    obtain ⟨k0, v0⟩ := e
    by_cases h : k0 = k
    · simp [setMap, lookupMap, h]
    · simp [setMap, lookupMap, h, ih]

theorem lookupMap_setMap_ne (l : List (String × α)) {k k2 : String} (v : α)
    (h : k2 ≠ k) : lookupMap (setMap l k v) k2 = lookupMap l k2 := by
  induction l with
  | nil =>
    simp only [setMap, lookupMap]
    rw [if_neg (Ne.symm h)]
  | cons e rest ih =>
    obtain ⟨k0, v0⟩ := e
    by_cases h0 : k0 = k
    · subst h0
      simp only [setMap, if_pos rfl, lookupMap]
      rw [if_neg (Ne.symm h), if_neg (Ne.symm h)]
    · simp only [setMap, if_neg h0]
      by_cases h2 : k0 = k2
      · simp [lookupMap, h2]
      · simp [lookupMap, h2, ih]

theorem length_setMap_of_lookup_some (l : List (String × α)) {k : String} {v0 : α}
    (h : lookupMap l k = some v0) (v : α) :
    (setMap l k v).length = l.length := by
  induction l with
  | nil => exact absurd h (by simp [lookupMap])
  | cons e rest ih =>
    obtain ⟨k0, v1⟩ := e
    by_cases h0 : k0 = k
    · simp [setMap, h0]
    · rw [lookupMap, if_neg h0] at h
      simp [setMap, h0, ih h]

theorem length_setMap_of_lookup_none (l : List (String × α)) {k : String}
    (h : lookupMap l k = none) (v : α) :
    (setMap l k v).length = l.length + 1 := by
  induction l with
  | nil => rfl
  | cons e rest ih =>
    obtain ⟨k0, v1⟩ := e
    by_cases h0 : k0 = k
    · rw [lookupMap, if_pos h0] at h
      exact absurd h (by simp)
    · rw [lookupMap, if_neg h0] at h
      simp [setMap, h0, ih h]

theorem lookupMap_append_single {l : List (String × α)} {k : String}
    (h : lookupMap l k = none) (v : α) :
    lookupMap (l ++ [(k, v)]) k = some v := by
  induction l with
  | nil => simp [lookupMap]
  | cons e rest ih =>
    obtain ⟨k0, v0⟩ := e
    by_cases h0 : k0 = k
    · rw [lookupMap, if_pos h0] at h
      exact absurd h (by simp)
    · rw [lookupMap, if_neg h0] at h
      simpa [lookupMap, h0] using ih h

theorem lookupMap_append_single_ne {l : List (String × α)} {k k2 : String}
    (h : k2 ≠ k) (v : α) :
    lookupMap (l ++ [(k, v)]) k2 = lookupMap l k2 := by
  induction l with
  | nil =>
    simp only [List.nil_append, lookupMap]
    rw [if_neg (Ne.symm h)]
  | cons e rest ih =>
    obtain ⟨k0, v0⟩ := e
    by_cases h0 : k0 = k2
    · simp [lookupMap, h0]
    · simpa [lookupMap, h0] using ih

theorem mem_of_lookupMap_some {l : List (String × α)} {k : String} {v : α}
    (h : lookupMap l k = some v) : (k, v) ∈ l := by
  induction l with
  | nil => exact absurd h (by simp [lookupMap])
  | cons e rest ih =>
    obtain ⟨k0, v0⟩ := e
    by_cases h0 : k0 = k
    · rw [lookupMap, if_pos h0] at h
      rw [Option.some_inj] at h
      subst h0
      subst h
      exact List.mem_cons_self _ _
    · rw [lookupMap, if_neg h0] at h
      exact List.mem_cons_of_mem _ (ih h)

theorem lookupMap_eq_some_of_mem_nodup {l : List (String × α)} {k : String} {v : α}
    (hnd : (l.map Prod.fst).Nodup) (h : (k, v) ∈ l) :
    lookupMap l k = some v := by
  induction l with
  | nil => exact absurd h (by simp)
  | cons e rest ih =>
    obtain ⟨k0, v0⟩ := e
    rw [List.map_cons, List.nodup_cons] at hnd
    rcases List.mem_cons.mp h with heq | hmem
    · rw [Prod.mk.injEq] at heq
      rw [lookupMap, if_pos heq.1.symm, heq.2]
    · have hk0 : k0 ≠ k := by
        intro hc
        subst hc
        exact hnd.1 (List.mem_map.mpr ⟨(k0, v), hmem, rfl⟩)
      rw [lookupMap, if_neg hk0]
      exact ih hnd.2 hmem

theorem length_eraseKeyMap_of_mem {l : List (String × α)} {k : String} {v : α}
    (h : (k, v) ∈ l) : (eraseKeyMap l k).length + 1 = l.length := by
  induction l with
  | nil => exact absurd h (by simp)
  | cons e rest ih =>
    obtain ⟨k0, v0⟩ := e
    by_cases h0 : k0 = k
    · simp [eraseKeyMap, h0]
    · rcases List.mem_cons.mp h with heq | hmem
      · rw [Prod.mk.injEq] at heq
        exact absurd heq.1.symm h0
      · simp [eraseKeyMap, h0, ih hmem]

theorem lookupMap_eraseKeyMap_ne {l : List (String × α)} {k k2 : String}
    (h : k2 ≠ k) : lookupMap (eraseKeyMap l k) k2 = lookupMap l k2 := by
  induction l with
  | nil => rfl
  | cons e rest ih =>
    obtain ⟨k0, v0⟩ := e
    by_cases h0 : k0 = k
    · have he : eraseKeyMap ((k0, v0) :: rest) k = rest := by
        simp [eraseKeyMap, h0]
      rw [he, lookupMap, if_neg (by rw [h0]; exact Ne.symm h)]
    · have he : eraseKeyMap ((k0, v0) :: rest) k = (k0, v0) :: eraseKeyMap rest k := by
        simp [eraseKeyMap, h0]
      by_cases h2 : k0 = k2
      · rw [he, lookupMap, if_pos h2, lookupMap, if_pos h2]
      · rw [he, lookupMap, if_neg h2, lookupMap, if_neg h2, ih]

theorem findOldestGo_some_spec :
    ∀ (es : List (String × SessionState)) (acc : Option (String × Nat)) (k : String),
      findOldestGo acc es = some k →
      ∃ t, ((acc = some (k, t)) ∨ (∃ s, (k, s) ∈ es ∧ s.lastUpdated = t)) ∧
        (∀ e ∈ es, t ≤ e.2.lastUpdated) ∧
        (∀ o t2, acc = some (o, t2) → t ≤ t2) := by
  intro es
  induction es with
  | nil =>
    intro acc k h
    cases acc with
    | none => exact absurd h (by simp [findOldestGo])
    | some p =>
      obtain ⟨k0, t0⟩ := p
      have hk : k0 = k := by simpa [findOldestGo] using h
      subst hk
      refine ⟨t0, Or.inl rfl, by simp, ?_⟩
      rintro o t2 hacc
      rw [Option.some_inj, Prod.mk.injEq] at hacc
      omega
  | cons e rest ih =>
    intro acc k h
    obtain ⟨id, s⟩ := e
    cases acc with
    | none =>
      rw [show findOldestGo none ((id, s) :: rest) =
            findOldestGo (some (id, s.lastUpdated)) rest from rfl] at h
      obtain ⟨t, hloc, hall, hacc⟩ := ih _ k h
      have hts : t ≤ s.lastUpdated := hacc id s.lastUpdated rfl
      refine ⟨t, ?_, ?_, by rintro o t2 ⟨⟩⟩
      · rcases hloc with heq | ⟨s2, hmem, hlu⟩
        · rw [Option.some_inj, Prod.mk.injEq] at heq
          obtain ⟨h1, h2⟩ := heq
          exact Or.inr ⟨s, by rw [← h1]; exact List.mem_cons_self _ _, h2⟩
        · exact Or.inr ⟨s2, List.mem_cons_of_mem _ hmem, hlu⟩
      · intro e2 he2
        rcases List.mem_cons.mp he2 with heq | hmem
        · rw [heq]
          exact hts
        · exact hall e2 hmem
    | some p =>
      obtain ⟨oid, ot⟩ := p
      by_cases hlt : s.lastUpdated < ot
      · rw [show findOldestGo (some (oid, ot)) ((id, s) :: rest) =
              findOldestGo (some (id, s.lastUpdated)) rest from by
            simp [findOldestGo, hlt]] at h
        obtain ⟨t, hloc, hall, hacc⟩ := ih _ k h
        have hts : t ≤ s.lastUpdated := hacc id s.lastUpdated rfl
        refine ⟨t, ?_, ?_, ?_⟩
        · rcases hloc with heq | ⟨s2, hmem, hlu⟩
          · rw [Option.some_inj, Prod.mk.injEq] at heq
            obtain ⟨h1, h2⟩ := heq
            exact Or.inr ⟨s, by rw [← h1]; exact List.mem_cons_self _ _, h2⟩
          · exact Or.inr ⟨s2, List.mem_cons_of_mem _ hmem, hlu⟩
        · intro e2 he2
          rcases List.mem_cons.mp he2 with heq | hmem
          · rw [heq]
            exact hts
          · exact hall e2 hmem
        · rintro o t2 hacc2
          rw [Option.some_inj, Prod.mk.injEq] at hacc2
          omega
      · rw [show findOldestGo (some (oid, ot)) ((id, s) :: rest) =
              findOldestGo (some (oid, ot)) rest from by
            simp [findOldestGo, hlt]] at h
        obtain ⟨t, hloc, hall, hacc⟩ := ih _ k h
        have hto : t ≤ ot := hacc oid ot rfl
        refine ⟨t, ?_, ?_, ?_⟩
        · rcases hloc with heq | ⟨s2, hmem, hlu⟩
          · exact Or.inl heq
          · exact Or.inr ⟨s2, List.mem_cons_of_mem _ hmem, hlu⟩
        · intro e2 he2
          rcases List.mem_cons.mp he2 with heq | hmem
          · rw [heq]
            show t ≤ s.lastUpdated
            omega
          · exact hall e2 hmem
        · rintro o t2 hacc2
          rw [Option.some_inj, Prod.mk.injEq] at hacc2
          omega

theorem findOldestGo_acc_some :
    ∀ (es : List (String × SessionState)) (p : String × Nat),
      ∃ k, findOldestGo (some p) es = some k := by
  intro es
  induction es with
  | nil => exact fun p => ⟨p.1, rfl⟩
  | cons e rest ih =>
    intro p
    obtain ⟨id, s⟩ := e
    obtain ⟨oid, ot⟩ := p
    by_cases hlt : s.lastUpdated < ot
    · obtain ⟨k, hk⟩ := ih (id, s.lastUpdated)
      exact ⟨k, by simpa [findOldestGo, hlt] using hk⟩
    · obtain ⟨k, hk⟩ := ih (oid, ot)
      exact ⟨k, by simpa [findOldestGo, hlt] using hk⟩

theorem findOldest_of_ne_nil {es : List (String × SessionState)} (h : es ≠ []) :
    ∃ k s, findOldest es = some k ∧ (k, s) ∈ es ∧
      ∀ e ∈ es, s.lastUpdated ≤ e.2.lastUpdated := by
  cases es with
  | nil => exact absurd rfl h
  | cons e rest =>
    obtain ⟨id, s⟩ := e
    obtain ⟨k, hk⟩ := findOldestGo_acc_some rest (id, s.lastUpdated)
    obtain ⟨t, hloc, hall, hacc⟩ := findOldestGo_some_spec rest _ k hk
    have hts : t ≤ s.lastUpdated := hacc id s.lastUpdated rfl
    rcases hloc with heq | ⟨s2, hmem, hlu⟩
    · rw [Option.some_inj, Prod.mk.injEq] at heq
      obtain ⟨h1, h2⟩ := heq
      subst h1
      refine ⟨id, s, hk, List.mem_cons_self _ _, ?_⟩
      intro e2 he2
      rcases List.mem_cons.mp he2 with heq2 | hmem2
      · rw [heq2]
      · have := hall e2 hmem2
        omega
    · refine ⟨k, s2, hk, List.mem_cons_of_mem _ hmem, ?_⟩
      intro e2 he2
      rcases List.mem_cons.mp he2 with heq2 | hmem2
      · rw [heq2]
        show s2.lastUpdated ≤ s.lastUpdated
        omega
      · have := hall e2 hmem2
        omega

theorem pruneOnce_length {es : List (String × SessionState)} (h : es ≠ []) :
    (pruneOnce es).length + 1 = es.length := by
  obtain ⟨k, s, hfind, hmem, _⟩ := findOldest_of_ne_nil h
  unfold pruneOnce
  rw [hfind]
  exact length_eraseKeyMap_of_mem hmem

theorem pruneLoop_of_le {maxSize : Nat} {es : List (String × SessionState)}
    (h : es.length ≤ maxSize) (fuel : Nat) : pruneLoop maxSize fuel es = es := by
  cases fuel with
  | zero => rfl
  | succ n =>
    unfold pruneLoop
    rw [if_neg (by omega)]

theorem pruneLoop_length_le {maxSize : Nat} :
    ∀ (fuel : Nat) (es : List (String × SessionState)), es.length ≤ fuel →
      (pruneLoop maxSize fuel es).length ≤ maxSize := by
  intro fuel
  induction fuel with
  | zero =>
    intro es h
    have : es = [] := List.length_eq_zero.mp (by omega)
    subst this
    simp [pruneLoop]
  | succ n ih =>
    intro es h
    unfold pruneLoop
    by_cases hgt : es.length > maxSize
    · rw [if_pos hgt]
      have hne : es ≠ [] := by
        intro hc
        subst hc
        simp at hgt
      have := pruneOnce_length hne
      exact ih (pruneOnce es) (by omega)
    · rw [if_neg hgt]
      omega

theorem lookupMap_eq_none_iff {l : List (String × α)} {k : String} :
    lookupMap l k = none ↔ k ∉ l.map Prod.fst := by
  induction l with
  | nil => simp [lookupMap]
  | cons e rest ih =>
    obtain ⟨k0, v0⟩ := e
    by_cases h0 : k0 = k
    · simp [lookupMap, h0]
    · simp [lookupMap, h0, ih, Ne.symm h0]

theorem mem_keys_setMap {l : List (String × α)} {k k2 : String} {v : α}
    (h : k2 ∈ (setMap l k v).map Prod.fst) : k2 = k ∨ k2 ∈ l.map Prod.fst := by
  induction l with
  | nil =>
    simp [setMap] at h
    exact Or.inl h
  | cons e rest ih =>
    obtain ⟨k0, v0⟩ := e
    by_cases h0 : k0 = k
    · rw [setMap, if_pos h0, List.map_cons] at h
      rcases List.mem_cons.mp h with heq | hmem
      · exact Or.inl heq
      · exact Or.inr (by rw [List.map_cons]; exact List.mem_cons_of_mem _ hmem)
    · rw [setMap, if_neg h0, List.map_cons] at h
      rcases List.mem_cons.mp h with heq | hmem
      · exact Or.inr (by rw [List.map_cons, heq]; exact List.mem_cons_self _ _)
      · rcases ih hmem with hk | hmem2
        · exact Or.inl hk
        · exact Or.inr (by rw [List.map_cons]; exact List.mem_cons_of_mem _ hmem2)

theorem nodup_keys_setMap {l : List (String × α)} {k : String} {v : α}
    (hnd : (l.map Prod.fst).Nodup) : ((setMap l k v).map Prod.fst).Nodup := by
  induction l with
  | nil => simp [setMap]
  | cons e rest ih =>
    obtain ⟨k0, v0⟩ := e
    rw [List.map_cons, List.nodup_cons] at hnd
    by_cases h0 : k0 = k
    · subst h0
      rw [setMap, if_pos rfl, List.map_cons, List.nodup_cons]
      exact hnd
    · rw [setMap, if_neg h0, List.map_cons, List.nodup_cons]
      refine ⟨?_, ih hnd.2⟩
      intro hc
      rcases mem_keys_setMap hc with hk | hmem
      · exact h0 hk
      · exact hnd.1 hmem

theorem nodup_keys_append_single {l : List (String × α)} {k : String} {v : α}
    (hnd : (l.map Prod.fst).Nodup) (h : lookupMap l k = none) :
    ((l ++ [(k, v)]).map Prod.fst).Nodup := by
  rw [List.map_append]
  apply List.Nodup.append hnd (by simp)
  intro a ha hb
  simp at hb
  subst hb
  exact lookupMap_eq_none_iff.mp h ha

theorem upsertCore_maxSize (sid : String) (mutator : SessionState → SessionState)
    (st : PluginState) : (upsertCore sid mutator st).maxSize = st.maxSize := by
  unfold upsertCore
  cases lookupMap st.registry sid <;> rfl

theorem upsertCore_tick (sid : String) (mutator : SessionState → SessionState)
    (st : PluginState) : st.tick < (upsertCore sid mutator st).tick := by
  unfold upsertCore
  cases lookupMap st.registry sid <;> simp

theorem upsertCore_contextMap (sid : String) (mutator : SessionState → SessionState)
    (st : PluginState) : (upsertCore sid mutator st).contextMap = st.contextMap := by
  unfold upsertCore
  cases lookupMap st.registry sid <;> rfl

theorem upsertCore_length_le (sid : String) (mutator : SessionState → SessionState)
    (st : PluginState) :
    (upsertCore sid mutator st).registry.length ≤ st.registry.length + 1 := by
  unfold upsertCore
  cases h : lookupMap st.registry sid with
  | some s =>
    dsimp only
    rw [length_setMap_of_lookup_some st.registry h]
    omega
  | none =>
    dsimp only
    rw [List.length_append]
    simp

theorem upsertCore_nodup_keys (sid : String) (mutator : SessionState → SessionState)
    (st : PluginState) (hnd : (st.registry.map Prod.fst).Nodup) :
    ((upsertCore sid mutator st).registry.map Prod.fst).Nodup := by
  unfold upsertCore
  cases h : lookupMap st.registry sid with
  | some s => exact nodup_keys_setMap hnd
  | none => exact nodup_keys_append_single hnd h

theorem upsertSessionState_registry (sid : String) (mutator : SessionState → SessionState)
    (st : PluginState) :
    (upsertSessionState sid mutator st).registry =
      pruneLoop st.maxSize (upsertCore sid mutator st).registry.length
        (upsertCore sid mutator st).registry := by
  unfold upsertSessionState
  dsimp only
  rw [upsertCore_maxSize]

/-- C2: after every upsert the registry holds at most the configured
capacity of entries; when the upsert pushes the size above capacity,
exactly the single entry with the globally smallest recency tick is
removed (the scan is deterministic: the first minimal entry in iteration
order wins), and nothing is removed otherwise. -/
theorem upsertSessionState_bounded_eviction (st : PluginState) (sid : String)
    (mutator : SessionState → SessionState)
    (hnd : (st.registry.map Prod.fst).Nodup) :
    (upsertSessionState sid mutator st).registry.length ≤ st.maxSize ∧
    ((upsertCore sid mutator st).registry.length ≤ st.maxSize →
      (upsertSessionState sid mutator st).registry = (upsertCore sid mutator st).registry) ∧
    ((upsertCore sid mutator st).registry.length = st.maxSize + 1 →
      ∃ k s, findOldest (upsertCore sid mutator st).registry = some k ∧
        lookupMap (upsertCore sid mutator st).registry k = some s ∧
        (∀ e ∈ (upsertCore sid mutator st).registry, s.lastUpdated ≤ e.2.lastUpdated) ∧
        (upsertSessionState sid mutator st).registry =
          eraseKeyMap (upsertCore sid mutator st).registry k ∧
        (upsertSessionState sid mutator st).registry.length = st.maxSize) := by
  refine ⟨?_, ?_, ?_⟩
  · rw [upsertSessionState_registry]
    exact pruneLoop_length_le _ _ (Nat.le_refl _)
  · intro h
    rw [upsertSessionState_registry]
    exact pruneLoop_of_le h _
  · intro h
    have hne : (upsertCore sid mutator st).registry ≠ [] := by
      intro hc
      rw [hc] at h
      simp at h
    obtain ⟨k, s, hfind, hmem, hmin⟩ := findOldest_of_ne_nil hne
    have hlook : lookupMap (upsertCore sid mutator st).registry k = some s :=
      lookupMap_eq_some_of_mem_nodup (upsertCore_nodup_keys sid mutator st hnd) hmem
    have herase : (upsertSessionState sid mutator st).registry =
        eraseKeyMap (upsertCore sid mutator st).registry k := by
      rw [upsertSessionState_registry, h]
      unfold pruneLoop
      rw [if_pos (by omega)]
      have hponce : pruneOnce (upsertCore sid mutator st).registry =
          eraseKeyMap (upsertCore sid mutator st).registry k := by
        unfold pruneOnce
        rw [hfind]
      rw [hponce]
      apply pruneLoop_of_le
      have := length_eraseKeyMap_of_mem hmem
      omega
    refine ⟨k, s, hfind, hlook, hmin, herase, ?_⟩
    rw [herase]
    have := length_eraseKeyMap_of_mem hmem
    omega

/-- A one-entry registry at capacity 1, used as concrete input. -/
def c2State : PluginState :=
  { registry := [("a", createDefaultSessionState 1)]
    contextMap := []
    tick := 1
    maxSize := 1 }

/-- Witness for `upsertSessionState_bounded_eviction`: touching a second
session at capacity 1 keeps the registry at one entry. -/
theorem upsertSessionState_bounded_eviction_witness :
    (upsertSessionState "b" (fun s => s) c2State).registry.length ≤ c2State.maxSize :=
  (upsertSessionState_bounded_eviction c2State "b" (fun s => s) (by decide)).1

/-!
## Seeding-hook lemmas (claim C3)
-/

theorem mem_setMap {l : List (String × α)} {k : String} {v : α} {e : String × α}
    (h : e ∈ setMap l k v) : e = (k, v) ∨ e ∈ l := by
  induction l with
  | nil =>
    simp [setMap] at h
    exact Or.inl h
  | cons e0 rest ih =>
    obtain ⟨k0, v0⟩ := e0
    by_cases h0 : k0 = k
    · rw [setMap, if_pos h0] at h
      rcases List.mem_cons.mp h with heq | hmem
      · exact Or.inl heq
      · exact Or.inr (List.mem_cons_of_mem _ hmem)
    · rw [setMap, if_neg h0] at h
      rcases List.mem_cons.mp h with heq | hmem
      · exact Or.inr (heq ▸ List.mem_cons_self _ _)
      · rcases ih hmem with hk | hmem2
        · exact Or.inl hk
        · exact Or.inr (List.mem_cons_of_mem _ hmem2)

theorem upsertCore_other_entries (sid : String) (mutator : SessionState → SessionState)
    (st : PluginState) :
    ∀ e ∈ (upsertCore sid mutator st).registry, e.1 ≠ sid → e ∈ st.registry := by
  unfold upsertCore
  cases h : lookupMap st.registry sid with
  | some s =>
    intro e he hne
    rcases mem_setMap he with heq | hmem
    · exact absurd (by rw [heq]) hne
    · exact hmem
  | none =>
    intro e he hne
    rcases List.mem_append.mp he with hmem | hmem
    · exact hmem
    · simp at hmem
      exact absurd (by rw [hmem]) hne

theorem upsertCore_lookup_self_some {st : PluginState} {sid : String} {s : SessionState}
    (mutator : SessionState → SessionState)
    (h : lookupMap st.registry sid = some s) :
    lookupMap (upsertCore sid mutator st).registry sid =
      some { mutator s with lastUpdated := st.tick + 1 } := by
  unfold upsertCore
  rw [h]
  exact lookupMap_setMap_self _ _ _

theorem upsertCore_lookup_self_none {st : PluginState} {sid : String}
    (mutator : SessionState → SessionState)
    (h : lookupMap st.registry sid = none) :
    lookupMap (upsertCore sid mutator st).registry sid =
      some { mutator (createDefaultSessionState (st.tick + 1)) with
               lastUpdated := st.tick + 2 } := by
  unfold upsertCore
  rw [h]
  exact lookupMap_append_single h _

theorem upsertCore_lookup_self_tick (sid : String) (mutator : SessionState → SessionState)
    (st : PluginState) :
    ∃ v, lookupMap (upsertCore sid mutator st).registry sid = some v ∧
      st.tick < v.lastUpdated := by
  cases h : lookupMap st.registry sid with
  | some s =>
    exact ⟨_, upsertCore_lookup_self_some mutator h, by simp⟩
  | none =>
    exact ⟨_, upsertCore_lookup_self_none mutator h, by simp⟩

theorem exists_other_key {l : List (String × SessionState)}
    (hlen : 2 ≤ l.length) (hnd : (l.map Prod.fst).Nodup) (k0 : String) :
    ∃ e ∈ l, e.1 ≠ k0 := by
  match l, hlen with
  | e1 :: e2 :: rest, _ =>
    rw [List.map_cons, List.map_cons, List.nodup_cons] at hnd
    have hne : e1.1 ≠ e2.1 := by
      intro hc
      exact hnd.1 (by rw [hc]; exact List.mem_cons_self _ _)
    by_cases h1 : e1.1 = k0
    · exact ⟨e2, List.mem_cons_of_mem _ (List.mem_cons_self _ _), by rw [← h1]; exact (Ne.symm hne)⟩
    · exact ⟨e1, List.mem_cons_self _ _, h1⟩

/-- The registry entry just touched by an upsert survives the pruning
pass: its recency tick is strictly the greatest, so the evicted entry (if
any) is a different session. -/
theorem upsertSessionState_lookup_self (st : PluginState) (sid : String)
    (mutator : SessionState → SessionState)
    (hnd : (st.registry.map Prod.fst).Nodup)
    (htick : ∀ e ∈ st.registry, e.2.lastUpdated ≤ st.tick)
    (hle : st.registry.length ≤ st.maxSize)
    (hmax : 1 ≤ st.maxSize) :
    lookupMap (upsertSessionState sid mutator st).registry sid =
      lookupMap (upsertCore sid mutator st).registry sid := by
  rw [upsertSessionState_registry]
  by_cases h : (upsertCore sid mutator st).registry.length ≤ st.maxSize
  · rw [pruneLoop_of_le h]
  · have hlen : (upsertCore sid mutator st).registry.length = st.maxSize + 1 := by
      have := upsertCore_length_le sid mutator st
      omega
    have hne : (upsertCore sid mutator st).registry ≠ [] := by
      intro hc
      rw [hc] at hlen
      simp at hlen
    obtain ⟨k, s, hfind, hmem, hmin⟩ := findOldest_of_ne_nil hne
    obtain ⟨v, hv, hvtick⟩ := upsertCore_lookup_self_tick sid mutator st
    have hmidnd := upsertCore_nodup_keys sid mutator st hnd
    have hksid : k ≠ sid := by
      intro hc
      have hsk : lookupMap (upsertCore sid mutator st).registry k = some s :=
        lookupMap_eq_some_of_mem_nodup hmidnd hmem
      rw [hc, hv, Option.some_inj] at hsk
      obtain ⟨e2, he2, he2ne⟩ := exists_other_key (by omega) hmidnd sid
      have he2st : e2 ∈ st.registry := upsertCore_other_entries sid mutator st e2 he2 he2ne
      have h1 : e2.2.lastUpdated ≤ st.tick := htick e2 he2st
      have h2 : s.lastUpdated ≤ e2.2.lastUpdated := hmin e2 he2
      rw [hsk] at hvtick
      omega
    rw [hlen]
    unfold pruneLoop
    rw [if_pos (by omega)]
    have hponce : pruneOnce (upsertCore sid mutator st).registry =
        eraseKeyMap (upsertCore sid mutator st).registry k := by
      unfold pruneOnce
      rw [hfind]
    rw [hponce, pruneLoop_of_le (by have := length_eraseKeyMap_of_mem hmem; omega),
      lookupMap_eraseKeyMap_ne (Ne.symm hksid)]

theorem seedMutator_seeded (contextPaths : List Str) (userPrompt : Option Str)
    (s : SessionState) : (seedMutator contextPaths userPrompt s).seededFromHistory = true :=
  rfl

theorem seedMutator_seedCount (contextPaths : List Str) (userPrompt : Option Str)
    (s : SessionState) :
    (seedMutator contextPaths userPrompt s).seedCount = s.seedCount + 1 := by
  unfold seedMutator
  dsimp only
  split <;> rfl

theorem seedMutator_contextPaths (contextPaths : List Str) (userPrompt : Option Str)
    (s : SessionState) :
    (seedMutator contextPaths userPrompt s).contextPaths =
      contextPaths.foldl (fun acc p => insertSet p acc) s.contextPaths := by
  unfold seedMutator
  dsimp only
  split <;> rfl

theorem insertSet_nodup {l : List Str} (x : Str) (h : l.Nodup) :
    (insertSet x l).Nodup := by
  unfold insertSet
  by_cases hx : x ∈ l
  · rw [if_pos hx]
    exact h
  · rw [if_neg hx]
    simp [List.nodup_append, h, hx]

theorem foldl_insertSet_nodup :
    ∀ (paths : List Str) (l : List Str), l.Nodup →
      (paths.foldl (fun acc p => insertSet p acc) l).Nodup := by
  intro paths
  induction paths with
  | nil => exact fun l h => h
  | cons p rest ih =>
    intro l h
    exact ih _ (insertSet_nodup p h)

theorem messagesTransform_of_none {eP : List Msg → List Str} {eU : List Msg → Option Str}
    {messages : List Msg} {st : PluginState}
    (h : extractSessionID messages = none) :
    messagesTransform eP eU messages st = (st, false) := by
  unfold messagesTransform
  rw [h]

theorem messagesTransform_of_seeded {eP : List Msg → List Str} {eU : List Msg → Option Str}
    {messages : List Msg} {st : PluginState} {sid : String} {ex : SessionState}
    (h : extractSessionID messages = some sid)
    (hl : lookupMap st.registry sid = some ex)
    (hs : ex.seededFromHistory = true) :
    messagesTransform eP eU messages st = (st, false) := by
  unfold messagesTransform
  rw [h]
  dsimp only
  rw [hl]
  dsimp only
  rw [if_pos hs]

theorem messagesTransform_of_not_seeded {eP : List Msg → List Str} {eU : List Msg → Option Str}
    {messages : List Msg} {st : PluginState} {sid : String} {ex : SessionState}
    (h : extractSessionID messages = some sid)
    (hl : lookupMap st.registry sid = some ex)
    (hs : ex.seededFromHistory = false) :
    messagesTransform eP eU messages st =
      (let st1 := upsertSessionState sid (seedMutator (eP messages) (eU messages)) st
       ({ st1 with contextMap := setMap st1.contextMap sid ⟨eP messages, eU messages⟩ }, true)) := by
  unfold messagesTransform
  rw [h]
  dsimp only
  rw [hl]
  dsimp only
  rw [if_neg (by rw [hs]; exact Bool.false_ne_true)]

theorem messagesTransform_of_absent {eP : List Msg → List Str} {eU : List Msg → Option Str}
    {messages : List Msg} {st : PluginState} {sid : String}
    (h : extractSessionID messages = some sid)
    (hl : lookupMap st.registry sid = none) :
    messagesTransform eP eU messages st =
      (let st1 := upsertSessionState sid (seedMutator (eP messages) (eU messages)) st
       ({ st1 with contextMap := setMap st1.contextMap sid ⟨eP messages, eU messages⟩ }, true)) := by
  unfold messagesTransform
  rw [h]
  dsimp only
  rw [hl]

/-- C3: processing the turn-start signal twice with the same message
history is idempotent — the second call leaves the plugin state exactly
as the first call left it and performs no rescan — and a fresh session
seeded by the first call has seed counter 1, is marked seeded, and holds
a duplicate-free path set. -/
theorem messagesTransform_idempotent_seeding
    (extractPaths : List Msg → List Str) (extractPrompt : List Msg → Option Str)
    (messages : List Msg) (st : PluginState)
    (hnd : (st.registry.map Prod.fst).Nodup)
    (htick : ∀ e ∈ st.registry, e.2.lastUpdated ≤ st.tick)
    (hle : st.registry.length ≤ st.maxSize)
    (hmax : 1 ≤ st.maxSize) :
    (messagesTransform extractPaths extractPrompt messages
        (messagesTransform extractPaths extractPrompt messages st).1 =
      ((messagesTransform extractPaths extractPrompt messages st).1, false)) ∧
    (∀ sid, extractSessionID messages = some sid →
      lookupMap st.registry sid = none →
      ∃ s2, lookupMap (messagesTransform extractPaths extractPrompt
          messages st).1.registry sid = some s2 ∧
        s2.seedCount = 1 ∧ s2.seededFromHistory = true ∧ s2.contextPaths.Nodup) := by
  have hseeded : ∀ sid, extractSessionID messages = some sid →
      (lookupMap st.registry sid = none ∨
        (∃ ex, lookupMap st.registry sid = some ex ∧ ex.seededFromHistory = false)) →
      ∃ s2, lookupMap (messagesTransform extractPaths extractPrompt
          messages st).1.registry sid = some s2 ∧ s2.seededFromHistory = true ∧
        (lookupMap st.registry sid = none → s2.seedCount = 1 ∧ s2.contextPaths.Nodup) := by
    intro sid hsid hcase
    have hreg : (messagesTransform extractPaths extractPrompt messages st).1.registry =
        (upsertSessionState sid
          (seedMutator (extractPaths messages) (extractPrompt messages)) st).registry := by
      rcases hcase with hnone | ⟨ex, hex, hexs⟩
      · rw [messagesTransform_of_absent hsid hnone]
      · rw [messagesTransform_of_not_seeded hsid hex hexs]
    rw [hreg, upsertSessionState_lookup_self st sid _ hnd htick hle hmax]
    rcases hcase with hnone | ⟨ex, hex, hexs⟩
    · rw [upsertCore_lookup_self_none _ hnone]
      refine ⟨_, rfl, ?_, ?_⟩
      · exact seedMutator_seeded (extractPaths messages) (extractPrompt messages)
          (createDefaultSessionState (st.tick + 1))
      · intro _
        constructor
        · show (seedMutator (extractPaths messages) (extractPrompt messages)
              (createDefaultSessionState (st.tick + 1))).seedCount = 1
          rw [seedMutator_seedCount]
          rfl
        · show (seedMutator (extractPaths messages) (extractPrompt messages)
              (createDefaultSessionState (st.tick + 1))).contextPaths.Nodup
          rw [seedMutator_contextPaths]
          exact foldl_insertSet_nodup _ _ (by simp [createDefaultSessionState])
    · rw [upsertCore_lookup_self_some _ hex]
      refine ⟨_, rfl, ?_, ?_⟩
      · exact seedMutator_seeded (extractPaths messages) (extractPrompt messages) ex
      · intro hc
        rw [hc] at hex
        exact Option.noConfusion hex
  constructor
  · cases hsid : extractSessionID messages with
    | none =>
      rw [messagesTransform_of_none hsid, messagesTransform_of_none hsid]
    | some sid =>
      cases hlook : lookupMap st.registry sid with
      | some ex =>
        cases hexs : ex.seededFromHistory with
        | true =>
          rw [messagesTransform_of_seeded hsid hlook hexs]
          exact messagesTransform_of_seeded hsid hlook hexs
        | false =>
          obtain ⟨s2, hs2, hs2seeded, _⟩ :=
            hseeded sid hsid (Or.inr ⟨ex, hlook, hexs⟩)
          exact messagesTransform_of_seeded hsid hs2 hs2seeded
      | none =>
        obtain ⟨s2, hs2, hs2seeded, _⟩ := hseeded sid hsid (Or.inl hlook)
        exact messagesTransform_of_seeded hsid hs2 hs2seeded
  · intro sid hsid hnone
    obtain ⟨s2, hs2, hs2seeded, hfresh⟩ := hseeded sid hsid (Or.inl hnone)
    exact ⟨s2, hs2, (hfresh hnone).1, hs2seeded, (hfresh hnone).2⟩

/-- Witness for `messagesTransform_idempotent_seeding`: a concrete
two-call run on an empty registry. -/
theorem messagesTransform_idempotent_seeding_witness :
    (messagesTransform (fun _ => ["a.ts".toList]) (fun _ => some "hi".toList)
        [⟨some "s1", []⟩]
        (messagesTransform (fun _ => ["a.ts".toList]) (fun _ => some "hi".toList)
          [⟨some "s1", []⟩] ⟨[], [], 0, 100⟩).1 =
      ((messagesTransform (fun _ => ["a.ts".toList]) (fun _ => some "hi".toList)
          [⟨some "s1", []⟩] ⟨[], [], 0, 100⟩).1, false)) :=
  (messagesTransform_idempotent_seeding (fun _ => ["a.ts".toList])
      (fun _ => some "hi".toList) [⟨some "s1", []⟩] ⟨[], [], 0, 100⟩
      (by decide) (by intro e he; simp at he) (by decide) (by decide)).1

/-!
## Path normalization (claim C7)

`normalizeContextPath`'s documentation says an absolute path outside the
project root "returns as-is", but the code calls `path.relative`
unconditionally for every absolute path, producing a `../`-relative
result for paths outside the root.
-/

/-- C7 (code evaluation): an absolute path under the root becomes
root-relative and a relative path passes through unchanged, but an
absolute path outside the root is rewritten to a `../`-prefixed relative
path instead of passing through unchanged as documented. -/
theorem normalizeContextPath_divergence :
    normalizeContextPath "/etc/passwd".toList "/home/project".toList =
      "../../etc/passwd".toList ∧
    normalizeContextPath "/home/project/src/app.ts".toList "/home/project".toList =
      "src/app.ts".toList ∧
    normalizeContextPath "src/app.ts".toList "/home/project".toList =
      "src/app.ts".toList := by
  refine ⟨by decide, by decide, by decide⟩

/-!
## Compaction hook (claims C8 and C9)
-/

theorem upsertSessionState_contextMap (sid : String)
    (mutator : SessionState → SessionState) (st : PluginState) :
    (upsertSessionState sid mutator st).contextMap = st.contextMap := by
  unfold upsertSessionState
  exact upsertCore_contextMap sid mutator st

theorem compactingHook_of_some {st : PluginState} {sid : String} {s : SessionState}
    (outCtx : List Str) (now : Nat)
    (hs : lookupMap st.registry sid = some s)
    (hne : ¬s.contextPaths.length = 0) :
    compactingHook (some sid) st outCtx now =
      (upsertSessionState sid
        (fun state => { state with isCompacting := true, compactingSince := some now }) st,
       outCtx ++ [List.intercalate ['\n']
         (compactionHeader ++ ((jsSort s.contextPaths).take 20).map compactionItemLine ++
           (if (jsSort s.contextPaths).length > 20 then
             [compactionMoreLine ((jsSort s.contextPaths).length - 20)] else []))]) := by
  unfold compactingHook
  dsimp only
  rw [hs]
  dsimp only
  rw [if_neg hne]

/-- A concrete session and plugin state used to exercise the compaction hook. -/
def compactSession : SessionState :=
  { contextPaths := ["a.ts".toList]
    lastUserPrompt := none
    lastUpdated := 1
    isCompacting := false
    compactingSince := none
    seededFromHistory := true
    seedCount := 1 }

def compactState : PluginState :=
  { registry := [("s", compactSession)]
    contextMap := []
    tick := 1
    maxSize := 100 }

/-- Counterexample to C9 as stated: after the compacting hook the
session's state is not exactly what it was — the hook flips
`isCompacting` from `false` to `true` (and stamps `compactingSince` and a
new recency tick) via `upsertSessionState`. -/
theorem compactingHook_not_readonly_counterexample :
    (lookupMap (compactingHook (some "s") compactState [] 5).1.registry "s" ≠
      lookupMap compactState.registry "s") ∧
    (lookupMap compactState.registry "s").map SessionState.isCompacting = some false ∧
    (lookupMap (compactingHook (some "s") compactState [] 5).1.registry "s").map
      SessionState.isCompacting = some true := by
  refine ⟨by decide, by decide, by decide⟩

/-- C9 (amended): compaction publication preserves the tracked path set
and every user-facing field of the session (paths, last prompt, seeding
state, seed counter), leaves all other sessions and the transient context
map untouched, and changes only the advisory compaction flags
(`isCompacting`, `compactingSince`) and the recency tick of the session
being compacted. -/
theorem compactingHook_preserves_paths (st : PluginState) (sid : String)
    (s : SessionState) (outCtx : List Str) (now : Nat)
    (hle : st.registry.length ≤ st.maxSize)
    (hs : lookupMap st.registry sid = some s)
    (hne : ¬s.contextPaths.length = 0) :
    (∃ s2, lookupMap (compactingHook (some sid) st outCtx now).1.registry sid = some s2 ∧
      s2.contextPaths = s.contextPaths ∧
      s2.lastUserPrompt = s.lastUserPrompt ∧
      s2.seededFromHistory = s.seededFromHistory ∧
      s2.seedCount = s.seedCount ∧
      s2.isCompacting = true ∧
      s2.compactingSince = some now ∧
      s2.lastUpdated = st.tick + 1) ∧
    (∀ k, k ≠ sid →
      lookupMap (compactingHook (some sid) st outCtx now).1.registry k =
        lookupMap st.registry k) ∧
    (compactingHook (some sid) st outCtx now).1.contextMap = st.contextMap := by
  rw [compactingHook_of_some outCtx now hs hne]
  dsimp only
  have hreg : (upsertSessionState sid
      (fun state => { state with isCompacting := true, compactingSince := some now })
      st).registry =
      setMap st.registry sid
        { s with isCompacting := true, compactingSince := some now,
                 lastUpdated := st.tick + 1 } := by
    rw [upsertSessionState_registry]
    have hmid : (upsertCore sid
        (fun state => { state with isCompacting := true, compactingSince := some now })
        st).registry =
        setMap st.registry sid
          { s with isCompacting := true, compactingSince := some now,
                   lastUpdated := st.tick + 1 } := by
      unfold upsertCore
      rw [hs]
    rw [hmid, pruneLoop_of_le (by rw [length_setMap_of_lookup_some st.registry hs]; exact hle)]
  refine ⟨?_, ?_, ?_⟩
  · rw [hreg]
    refine ⟨_, lookupMap_setMap_self _ _ _, rfl, rfl, rfl, rfl, rfl, rfl, rfl⟩
  · intro k hk
    rw [hreg]
    exact lookupMap_setMap_ne _ _ hk
  · exact upsertSessionState_contextMap _ _ _

/-- Witness for `compactingHook_preserves_paths` at the concrete state. -/
theorem compactingHook_preserves_paths_witness :
    (compactingHook (some "s") compactState [] 5).1.contextMap = compactState.contextMap :=
  (compactingHook_preserves_paths compactState "s" compactSession [] 5
      (by decide) rfl (by decide)).2.2

theorem jsLeB_total : ∀ a b : Str, jsLeB a b = true ∨ jsLeB b a = true := by
  intro a
  induction a with
  | nil => intro b; exact Or.inl rfl
  | cons c as ih =>
    intro b
    cases b with
    | nil => exact Or.inr rfl
    | cons d bs =>
      by_cases h1 : c.toNat < d.toNat
      · left
        unfold jsLeB
        rw [if_pos h1]
      · by_cases h2 : d.toNat < c.toNat
        · right
          unfold jsLeB
          rw [if_pos h2]
        · rcases ih bs with h | h
          · left
            unfold jsLeB
            rw [if_neg h1, if_neg h2]
            exact h
          · right
            unfold jsLeB
            rw [if_neg h2, if_neg h1]
            exact h

theorem jsLeB_trans : ∀ a b c : Str,
    jsLeB a b = true → jsLeB b c = true → jsLeB a c = true := by
  intro a
  induction a with
  | nil => intro b c _ _; rfl
  | cons x as ih =>
    intro b c hab hbc
    cases b with
    | nil => exact absurd hab (by simp [jsLeB])
    | cons y bs =>
      cases c with
      | nil => exact absurd hbc (by simp [jsLeB])
      | cons z cs =>
        unfold jsLeB at hab hbc ⊢
        by_cases hxy : x.toNat < y.toNat
        · rw [if_pos hxy] at hab
          by_cases hyz : y.toNat < z.toNat
          · rw [if_pos (by omega : x.toNat < z.toNat)]
          · by_cases hzy : z.toNat < y.toNat
            · rw [if_neg hyz, if_pos hzy] at hbc
              exact absurd hbc (by simp)
            · rw [if_pos (by omega : x.toNat < z.toNat)]
        · by_cases hyx : y.toNat < x.toNat
          · rw [if_neg hxy, if_pos hyx] at hab
            exact absurd hab (by simp)
          · rw [if_neg hxy, if_neg hyx] at hab
            by_cases hyz : y.toNat < z.toNat
            · rw [if_pos (by omega : x.toNat < z.toNat)]
            · by_cases hzy : z.toNat < y.toNat
              · rw [if_neg hyz, if_pos hzy] at hbc
                exact absurd hbc (by simp)
              · rw [if_neg hyz, if_neg hzy] at hbc
                rw [if_neg (by omega : ¬x.toNat < z.toNat),
                  if_neg (by omega : ¬z.toNat < x.toNat)]
                exact ih bs cs hab hbc

instance : IsTotal Str jsLe :=
  ⟨fun a b => by
    rcases jsLeB_total a b with h | h
    · exact Or.inl h
    · exact Or.inr h⟩

instance : IsTrans Str jsLe :=
  ⟨fun a b c hab hbc => jsLeB_trans a b c hab hbc⟩

theorem sanitizePathForContext_sanitized (p : Str) :
    (sanitizePathForContext p).length ≤ 300 ∧
    ∀ c ∈ sanitizePathForContext p, ¬(c = '\n' ∨ c = '\r' ∨ c = '\t') := by
  constructor
  · unfold sanitizePathForContext
    exact List.length_take_le _ _
  · intro c hc
    unfold sanitizePathForContext at hc
    have hc2 := List.mem_of_mem_take hc
    rcases List.mem_map.mp hc2 with ⟨c0, _, hmap⟩
    intro hbad
    by_cases hb : (c0 = '\r' || c0 = '\n' || c0 = '\t') = true
    · rw [if_pos hb] at hmap
      rcases hbad with h | h | h <;> rw [← hmap] at h <;> exact absurd h (by decide)
    · rw [if_neg hb] at hmap
      simp only [Bool.or_eq_true, decide_eq_true_eq, not_or] at hb
      subst hmap
      rcases hbad with h | h | h
      · exact hb.1.2 h
      · exact hb.1.1 h
      · exact hb.2 h

/-- C8: on compaction for a session with at least one tracked path, the
appended block lists a sorted, deduplicated snapshot of the session's
tracked paths, capped at 20 entries with an explicit `... and K more
paths` marker when more than 20 exist, every listed path sanitized (no
newline, carriage return or tab; at most 300 characters); in particular
the tracked paths `b.ts, a.ts, c.ts` snapshot in the order
`a.ts, b.ts, c.ts`. -/
theorem compactingHook_snapshot (st : PluginState) (sid : String) (s : SessionState)
    (outCtx : List Str) (now : Nat)
    (hs : lookupMap st.registry sid = some s)
    (hne : ¬s.contextPaths.length = 0)
    (hpnd : s.contextPaths.Nodup) :
    ∃ snap : List Str,
      snap.Perm s.contextPaths ∧
      List.Sorted jsLe snap ∧
      snap.Nodup ∧
      (compactingHook (some sid) st outCtx now).2 =
        outCtx ++ [List.intercalate ['\n']
          (compactionHeader ++ (snap.take 20).map compactionItemLine ++
            (if snap.length > 20 then [compactionMoreLine (snap.length - 20)] else []))] ∧
      (∀ p ∈ snap.take 20,
        (sanitizePathForContext p).length ≤ 300 ∧
        ∀ c ∈ sanitizePathForContext p, ¬(c = '\n' ∨ c = '\r' ∨ c = '\t')) ∧
      jsSort ["b.ts".toList, "a.ts".toList, "c.ts".toList] =
        ["a.ts".toList, "b.ts".toList, "c.ts".toList] := by
  refine ⟨jsSort s.contextPaths, ?_, ?_, ?_, ?_, ?_, by decide⟩
  · exact List.perm_insertionSort jsLe s.contextPaths
  · exact List.sorted_insertionSort jsLe s.contextPaths
  · exact ((List.perm_insertionSort jsLe s.contextPaths).symm.nodup hpnd)
  · rw [compactingHook_of_some outCtx now hs hne]
  · intro p _
    exact sanitizePathForContext_sanitized p

/-- Witness for `compactingHook_snapshot`: the spec's determinism example,
obtained by applying the theorem at a concrete session. -/
theorem compactingHook_snapshot_witness :
    jsSort ["b.ts".toList, "a.ts".toList, "c.ts".toList] =
      ["a.ts".toList, "b.ts".toList, "c.ts".toList] := by
  obtain ⟨snap, _, _, _, _, _, hex⟩ :=
    compactingHook_snapshot compactState "s" compactSession [] 3 rfl (by decide) (by decide)
  exact hex

end OpencodeRules
